import Mathlib

/-!
Shallow embedding of the ETASCatGen catalog generator
(`src/cpp/src/catgen_M_t.cpp`) over the real numbers, together with
theorems settling the specification claims.

Modelling conventions:
* C++ `double` arithmetic is modelled by `ℝ`; `std::exp`, `std::log` and
  `std::pow` become `Real.exp`, `Real.log` and `Real.rpow` (the C++ code
  only calls `std::pow` on positive bases in the verified paths).
* The `boost::units` quantities (`Time`, `Frequency`, `Scalar`) are
  dimensionless in the embedding: the entry point fixes the reference
  time `Tref = 1 s` and all quantities are plain reals in SI units.
* The `std::mt19937_64` generator together with
  `std::uniform_real_distribution<double>(0.0, 1.0)` is modelled from the
  spec as an abstract stream `u : ℕ → ℝ` of uniform draws, one value per
  `uniform(rng)` call, indexed by call order; the spec states that the
  generator never returns the endpoints, so hypotheses `u k ∈ Ioo 0 1`
  reflect that contract.
* `std::priority_queue<excitement_t>` with the reversed comparison
  (`operator<` comparing `tnext >`) is a min-queue on `tnext`; it is
  modelled as a list kept sorted by ascending `tnext`, whose head is the
  queue's top element.
* `throw std::runtime_error(msg)` becomes `Except.error msg`; output
  buffers become the returned lists of an `Except.ok` value.
-/

namespace ETASCatGen

open Real

/-- The process-parameter record `Process_M_t` (catgen_M_t.cpp, lines 46-54).
`Time` and `Frequency` quantities are reals (SI units, `Tref = 1 s`). -/
structure Process_M_t where
  mu_0 : ℝ
  Tref : ℝ
  c : ℝ
  beta : ℝ
  Mr : ℝ
  p : ℝ
  ln_p : ℝ
  FK : ℝ

/-- `Process_M_t::critical_FK` (catgen_M_t.cpp, lines 75-97):
`(p-1) * exp(p*log(c/Tref)) / c * (1 - exp(-beta*(Mmax-Mmin)))
/ (beta * exp(beta*(Mmin-Mr)) * (Mmax-Mmin))`. -/
noncomputable def critical_FK (Mmin Mmax p c Tref beta Mr : ℝ) : ℝ :=
  (p - 1) * Real.exp (p * Real.log (c / Tref)) / c
    * (1 - Real.exp (-beta * (Mmax - Mmin)))
    / (beta * Real.exp (beta * (Mmin - Mr)) * (Mmax - Mmin))

/-- The `Process_M_t` constructor (catgen_M_t.cpp, lines 56-72): copies the
parameters, sets `ln_p = log p` and `FK = critical_FK(...) * offspring_fraction`. -/
noncomputable def Process_M_t.mk' (mu_0 Tref c beta Mr p Mmin Mmax offspring_fraction : ℝ) :
    Process_M_t :=
  ⟨mu_0, Tref, c, beta, Mr, p, Real.log p,
    critical_FK Mmin Mmax p c Tref beta Mr * offspring_fraction⟩

/-- The excitation factor `f` (catgen_M_t.cpp, lines 120-123):
`exp(beta * (M - Mr))`. -/
noncomputable def f (M : ℝ) (process : Process_M_t) : ℝ :=
  Real.exp (process.beta * (M - process.Mr))

/-- `Lambda_i_oo` (catgen_M_t.cpp, lines 148-166): the tail integral of the
Omori-Utsu excitation from `tl` to infinity,
`-f(Mi) * Tref * FK / (1-p) * ((tl - ti + c)/Tref)^(1-p)`. -/
noncomputable def Lambda_i_oo (ti tl Mi : ℝ) (process : Process_M_t) : ℝ :=
  -f Mi process * process.Tref * process.FK / (1 - process.p)
    * ((tl - ti + process.c) / process.Tref) ^ (1 - process.p)

/-- `next_single_occurrence` (catgen_M_t.cpp, lines 169-200): early exit with
no occurrence when `q ≤ exp(-Lambda_i_oo)`, else the closed-form inverse of
the truncated kernel integral. -/
noncomputable def next_single_occurrence (q ti Mi tl : ℝ) (process : Process_M_t) :
    Option ℝ :=
  if q ≤ Real.exp (-Lambda_i_oo ti tl Mi process) then
    none
  else
    some (ti - process.c + process.Tref * Real.exp (
      1 / (1 - process.p) * Real.log (
        ((tl - ti + process.c) / process.Tref) ^ (1 - process.p)
        - (1 - process.p) / (f Mi process * process.FK * process.Tref) * Real.log q)))

/-- `next_background_occurrence` (catgen_M_t.cpp, lines 203-210):
`tl - log(q) / mu_0`. -/
noncomputable def next_background_occurrence (q tl : ℝ) (process : Process_M_t) : ℝ :=
  tl - Real.log q / process.mu_0

/-- `draw_magnitude` (catgen_M_t.cpp, lines 213-223): inverse CDF of the
truncated Gutenberg-Richter law,
`Mmin - log(1 - q * (1 - exp(-beta*(Mmax-Mmin)))) / beta`. -/
noncomputable def draw_magnitude (q Mmin Mmax beta : ℝ) : ℝ :=
  Mmin - Real.log (1 - q * (1 - Real.exp (-beta * (Mmax - Mmin)))) / beta

/-- `excitement_t` (catgen_M_t.cpp, lines 230-248): one open descendant
stream, keyed for the priority queue by its next candidate time `tnext`.
The C++ `operator<` compares `tnext` reversed so that the `std::priority_queue`
max-heap behaves as a min-queue on `tnext`. -/
structure excitement_t where
  ti : ℝ
  M : ℝ
  tnext : ℝ

/-- The queue order induced by the reversed `excitement_t` comparisons:
the element with the smallest `tnext` is on top. -/
def exle (a b : excitement_t) : Prop := a.tnext ≤ b.tnext

noncomputable instance : DecidableRel exle :=
  fun a b => Real.decidableLE a.tnext b.tnext

instance : IsTotal excitement_t exle := ⟨fun a b => le_total a.tnext b.tnext⟩

instance : IsTrans excitement_t exle := ⟨fun _ _ _ hab hbc => le_trans hab hbc⟩

/-- `descendants.push` on the priority queue, modelled as ordered insertion
into the list sorted by ascending `tnext` (the heap's abstract state). -/
noncomputable def descPush (e : excitement_t) (q : List excitement_t) :
    List excitement_t :=
  List.orderedInsert exle e q

/-- The mutable state of `ETAS_generate_catalog_M_t`'s event loop
(catgen_M_t.cpp, lines 284-324): current event time `t` and magnitude `M`,
the pending background candidate `next_bg`, the priority queue of open
descendant streams, and the index `k` of the next uniform draw consumed
from the generator stream. -/
structure SimState where
  t : ℝ
  M : ℝ
  next_bg : ℝ
  descendants : List excitement_t
  k : ℕ

/-- First part of the loop body `next_event` (catgen_M_t.cpp, lines
331-361), "Get the next occurrence time": emit the background candidate if
the queue is empty or `next_bg` is strictly before the queue's top (and
redraw the background candidate), otherwise pop and emit the top
descendant and re-sample that ancestor's next child. -/
noncomputable def next_event_time (P : Process_M_t) (u : ℕ → ℝ)
    (s : SimState) : SimState :=
  match s.descendants with
  | [] =>
    { s with
      t := s.next_bg
      next_bg := next_background_occurrence (u s.k) s.next_bg P
      k := s.k + 1 }
  | ev :: rest =>
    if s.next_bg < ev.tnext then
      { s with
        t := s.next_bg
        next_bg := next_background_occurrence (u s.k) s.next_bg P
        k := s.k + 1 }
    else
      match next_single_occurrence (u s.k) ev.ti ev.M ev.tnext P with
      | some tn =>
        { s with
          t := ev.tnext
          descendants := descPush { ev with tnext := tn } rest
          k := s.k + 1 }
      | none =>
        { s with t := ev.tnext, descendants := rest, k := s.k + 1 }

/-- Second part of the loop body `next_event` (catgen_M_t.cpp, lines
363-392): draw the emitted event's magnitude ("Get the next magnitude"),
then attempt to sample a first child of the new event ("Check whether this
earthquake triggers another") with `tl = ti = t`. -/
noncomputable def next_event_rest (Mmin Mmax : ℝ) (P : Process_M_t)
    (u : ℕ → ℝ) (s1 : SimState) : SimState :=
  let M := draw_magnitude (u s1.k) Mmin Mmax P.beta
  let s2 : SimState := { s1 with M := M, k := s1.k + 1 }
  match next_single_occurrence (u s2.k) s2.t M s2.t P with
  | some tn =>
    { s2 with
      descendants := descPush ⟨s2.t, M, tn⟩ s2.descendants
      k := s2.k + 1 }
  | none => { s2 with k := s2.k + 1 }

/-- The loop body `next_event` (catgen_M_t.cpp, lines 329-393): the two
sequential parts composed. -/
noncomputable def next_event (Mmin Mmax : ℝ) (P : Process_M_t) (u : ℕ → ℝ)
    (s : SimState) : SimState :=
  next_event_rest Mmin Mmax P u (next_event_time P u s)

/-- The branch condition of `next_event` (catgen_M_t.cpp, line 334): the
emitted event is a background event exactly when
`descendants.empty() || next_bg < descendants.top().tnext`. -/
def emitsBackground (s : SimState) : Prop :=
  match s.descendants with
  | [] => True
  | ev :: _ => s.next_bg < ev.tnext

/-- Iterate the loop body `n` times from a starting state. -/
noncomputable def iterState (Mmin Mmax : ℝ) (P : Process_M_t) (u : ℕ → ℝ)
    (s0 : SimState) : ℕ → SimState
  | 0 => s0
  | n + 1 => next_event Mmin Mmax P u (iterState Mmin Mmax P u s0 n)

/-- The state set up by `ETAS_generate_catalog_M_t` before the loop
(catgen_M_t.cpp, lines 302-324): `t = 0`, the first background candidate
drawn with the stream's first value, an empty queue.  (The C++ code leaves
`M` as NaN until the first event; the placeholder is never emitted because
outputs are written only after `next_event` calls, and is set to `0` here.) -/
noncomputable def initState (P : Process_M_t) (u : ℕ → ℝ) : SimState :=
  ⟨0, 0, next_background_occurrence (u 0) 0 P, [], 1⟩

/-- The successful-path output of `ETAS_generate_catalog_M_t`
(catgen_M_t.cpp, lines 284-426): build the process with `Tref = 1 s`,
set up the state, run the loop `N_skip` times discarding output, then `N`
more times writing the `(magnitude, time)` of each emitted event. -/
noncomputable def catalogOutput (mu_0 Mmin Mmax beta p c Mr
    offspring_fraction : ℝ) (N_skip N : ℕ) (u : ℕ → ℝ) : List ℝ × List ℝ :=
  let Tref : ℝ := 1
  let P := Process_M_t.mk' mu_0 Tref c beta Mr p Mmin Mmax offspring_fraction
  let s0 := initState P u
  ((List.range N).map fun i => (iterState Mmin Mmax P u s0 (N_skip + i + 1)).M,
   (List.range N).map fun i => (iterState Mmin Mmax P u s0 (N_skip + i + 1)).t)

/-- `ETAS_generate_catalog_M_t` (catgen_M_t.cpp, lines 253-427): validate,
then produce the catalog.  `NM` and `Nt` are the sizes of the magnitude
and time output buffers (`N = Mi.size()` in the source); the returned
pair is (magnitudes, times). -/
noncomputable def ETAS_generate_catalog_M_t (mu_0 Mmin Mmax beta p c Mr
    offspring_fraction : ℝ) (N_skip : ℕ) (NM Nt : ℕ) (u : ℕ → ℝ) :
    Except String (List ℝ × List ℝ) :=
  if Mmin ≥ Mmax then .error "Mmin >= Mmax"
  else if p ≤ 1 then .error "p <= 1"
  else if offspring_fraction ≥ 1 then .error "Instable process (offspring ratio > 1)"
  else if offspring_fraction < 0 then .error "Offspring ratio needs to be non-negative."
  else if Nt ≠ NM then .error "Size of M and t not compatible"
  else
    .ok (catalogOutput mu_0 Mmin Mmax beta p c Mr offspring_fraction N_skip NM u)

section MagnitudeLemmas

variable {Mmin Mmax beta : ℝ}

/-- For `beta > 0` and `Mmin < Mmax` the truncation mass
`1 - exp(-beta*(Mmax-Mmin))` is strictly between 0 and 1. -/
lemma truncation_mass_pos (hβ : 0 < beta) (hM : Mmin < Mmax) :
    0 < 1 - Real.exp (-beta * (Mmax - Mmin)) := by
  have h : Real.exp (-beta * (Mmax - Mmin)) < 1 :=
    Real.exp_lt_one_iff.mpr (by nlinarith)
  linarith

lemma truncation_mass_lt_one (x : ℝ) : 1 - Real.exp x < 1 := by
  have := Real.exp_pos x
  linarith

/-- For `q ∈ (0,1)` the argument of the logarithm in `draw_magnitude` is
at least `exp(-beta*(Mmax-Mmin))`, in particular positive. -/
lemma draw_magnitude_log_arg (hβ : 0 < beta) (hM : Mmin < Mmax)
    {q : ℝ} (hq : q ∈ Set.Ioo (0 : ℝ) 1) :
    Real.exp (-beta * (Mmax - Mmin))
      ≤ 1 - q * (1 - Real.exp (-beta * (Mmax - Mmin))) := by
  have hE := truncation_mass_pos hβ hM
  nlinarith [hq.1, hq.2]

end MagnitudeLemmas

/-- C6: for every `q ∈ (0,1)`, `beta > 0` and `Mmin < Mmax`,
`draw_magnitude q Mmin Mmax beta` equals
`Mmin - ln(1 - q*(1 - e^(-beta*(Mmax-Mmin))))/beta`, lies in
`[Mmin, Mmax]`, is strictly increasing in `q` on `(0,1)`, tends to `Mmin`
as `q → 0` and to `Mmax` as `q → 1`. -/
theorem C6_draw_magnitude (Mmin Mmax beta : ℝ) (hβ : 0 < beta) (hM : Mmin < Mmax) :
    (∀ q, draw_magnitude q Mmin Mmax beta
        = Mmin - Real.log (1 - q * (1 - Real.exp (-beta * (Mmax - Mmin)))) / beta)
    ∧ (∀ q ∈ Set.Ioo (0 : ℝ) 1,
        draw_magnitude q Mmin Mmax beta ∈ Set.Icc Mmin Mmax)
    ∧ StrictMonoOn (fun q => draw_magnitude q Mmin Mmax beta) (Set.Ioo 0 1)
    ∧ Filter.Tendsto (fun q => draw_magnitude q Mmin Mmax beta)
        (nhdsWithin 0 (Set.Ioi 0)) (nhds Mmin)
    ∧ Filter.Tendsto (fun q => draw_magnitude q Mmin Mmax beta)
        (nhdsWithin 1 (Set.Iio 1)) (nhds Mmax) := by
  have hE0 := truncation_mass_pos hβ hM
  have hE1 := truncation_mass_lt_one (-beta * (Mmax - Mmin))
  set E : ℝ := 1 - Real.exp (-beta * (Mmax - Mmin)) with hE
  have hexp : Real.exp (-beta * (Mmax - Mmin)) = 1 - E := by rw [hE]; ring
  refine ⟨fun q => rfl, ?_, ?_, ?_, ?_⟩
  · -- range
    intro q hq
    have harg := draw_magnitude_log_arg hβ hM hq
    rw [← hE, hexp] at harg
    have hpos : 0 < 1 - q * E := by
      have := Real.exp_pos (-beta * (Mmax - Mmin))
      rw [hexp] at this; linarith
    constructor
    · have hlog : Real.log (1 - q * E) ≤ 0 :=
        Real.log_nonpos (by linarith) (by nlinarith [hq.1, hq.2])
      have : Real.log (1 - q * E) / beta ≤ 0 :=
        div_nonpos_iff.mpr (Or.inr ⟨hlog, hβ.le⟩)
      simp only [draw_magnitude, ← hE]
      linarith
    · have hlb : Real.log (1 - E) ≤ Real.log (1 - q * E) :=
        Real.log_le_log (by rw [← hexp]; exact Real.exp_pos _) harg
      have hlb' : -beta * (Mmax - Mmin) ≤ Real.log (1 - q * E) := by
        rwa [← hexp, Real.log_exp] at hlb
      have : -(Mmax - Mmin) ≤ Real.log (1 - q * E) / beta := by
        rw [le_div_iff₀ hβ]; nlinarith
      simp only [draw_magnitude, ← hE]
      linarith
  · -- strict monotonicity
    intro a ha b hb hab
    have hposb : 0 < 1 - b * E := by
      have harg := draw_magnitude_log_arg hβ hM hb
      rw [← hE, hexp] at harg
      have := Real.exp_pos (-beta * (Mmax - Mmin))
      rw [hexp] at this; linarith
    have hlt : 1 - b * E < 1 - a * E := by nlinarith [ha.1]
    have hlog := Real.log_lt_log hposb hlt
    simp only [draw_magnitude, ← hE]
    have hdiv : Real.log (1 - b * E) / beta < Real.log (1 - a * E) / beta :=
      div_lt_div_of_pos_right hlog hβ
    linarith
  · -- limit as q → 0
    have h1 : ContinuousAt (fun q : ℝ => 1 - q * E) 0 := by fun_prop
    have hc : ContinuousAt (fun q : ℝ => draw_magnitude q Mmin Mmax beta) 0 := by
      have hcomp : ContinuousAt (fun q : ℝ => Real.log (1 - q * E)) 0 :=
        h1.log (by norm_num)
      have hsub : ContinuousAt (fun q : ℝ => Mmin - Real.log (1 - q * E) / beta) 0 :=
        continuousAt_const.sub (hcomp.div_const beta)
      simpa only [draw_magnitude, ← hE] using hsub
    have hval : draw_magnitude 0 Mmin Mmax beta = Mmin := by
      simp [draw_magnitude]
    have := hc.tendsto
    rw [hval] at this
    exact this.mono_left nhdsWithin_le_nhds
  · -- limit as q → 1
    have hpos1 : (0 : ℝ) < 1 - 1 * E := by
      have := Real.exp_pos (-beta * (Mmax - Mmin))
      rw [hexp] at this; linarith
    have h1 : ContinuousAt (fun q : ℝ => 1 - q * E) 1 := by fun_prop
    have hc : ContinuousAt (fun q : ℝ => draw_magnitude q Mmin Mmax beta) 1 := by
      have hcomp : ContinuousAt (fun q : ℝ => Real.log (1 - q * E)) 1 :=
        h1.log hpos1.ne'
      have hsub : ContinuousAt (fun q : ℝ => Mmin - Real.log (1 - q * E) / beta) 1 :=
        continuousAt_const.sub (hcomp.div_const beta)
      simpa only [draw_magnitude, ← hE] using hsub
    have hval : draw_magnitude 1 Mmin Mmax beta = Mmax := by
      simp only [draw_magnitude, ← hE, one_mul]
      rw [show (1 : ℝ) - E = Real.exp (-beta * (Mmax - Mmin)) from hexp.symm,
        Real.log_exp]
      field_simp
      ring
    have := hc.tendsto
    rw [hval] at this
    exact this.mono_left nhdsWithin_le_nhds

/-- The spec's closed form for the critical triggering scale, written from
the spec's words (spec §4.1) for comparison with the source's `critical_FK`:
`K* = (p-1) * c^(p-1) * (1 - e^(-beta*(Mmax-Mmin))) / (beta * (Mmax-Mmin))`. -/
noncomputable def Kstar_spec (Mmin Mmax p c beta : ℝ) : ℝ :=
  (p - 1) * c ^ (p - 1) * (1 - Real.exp (-beta * (Mmax - Mmin)))
    / (beta * (Mmax - Mmin))

/-- C4 counterexample: `c = -1`, `p = 3` passes every check of the
entry-point validation (with `Mmin = 0 < 1 = Mmax`,
`offspring_fraction = 1/2 ∈ [0,1)`; `Tref = 1` as fixed by the entry
point, `Mr = Mmin = 0`), yet `critical_FK ≠ K*/Tref^p` there: the source
formula evaluates to `-2(1 - e⁻¹)` while the spec's `K*/Tref^p` is
`+2(1 - e⁻¹)`. -/
theorem C4_counterexample :
    (0 : ℝ) < 1 ∧ (1 : ℝ) < 3 ∧ (0 : ℝ) ≤ 1 / 2 ∧ (1 / 2 : ℝ) < 1
    ∧ ¬ (critical_FK 0 1 3 (-1) 1 1 0
          = Kstar_spec 0 1 3 (-1) 1 / (1 : ℝ) ^ (3 : ℝ)) := by
  refine ⟨by norm_num, by norm_num, by norm_num, by norm_num, ?_⟩
  have hlog : Real.log (-1 : ℝ) = 0 := by
    rw [show (-1 : ℝ) = -(1 : ℝ) by norm_num, Real.log_neg_eq_log, Real.log_one]
  have hE : 0 < 1 - Real.exp (-1 : ℝ) := by
    have := Real.exp_lt_one_iff.mpr (by norm_num : (-1 : ℝ) < 0)
    linarith
  have hL : critical_FK 0 1 3 (-1) 1 1 0 = -(2 * (1 - Real.exp (-1))) := by
    unfold critical_FK
    norm_num [hlog]
  have hpow : ((-1 : ℝ)) ^ ((3 : ℝ) - 1) = 1 := by
    rw [show (3 : ℝ) - 1 = ((2 : ℕ) : ℝ) by norm_num, Real.rpow_natCast]
    norm_num
  have hR : Kstar_spec 0 1 3 (-1) 1 = 2 * (1 - Real.exp (-1)) := by
    unfold Kstar_spec
    rw [hpow]
    norm_num
  intro h
  rw [hL, hR, Real.one_rpow, div_one] at h
  nlinarith

/-- C4 (amended): for parameter sets passing validation that additionally
satisfy the interface precondition `c > 0` (with `Tref > 0`; the entry
point fixes `Tref = 1 s`), with reference magnitude `Mr = Mmin`, the
source's `critical_FK` equals the spec's `K* / Tref^p`, and the
`Process_M_t` constructor sets `FK = offspring_fraction * critical_FK`. -/
theorem C4_critical_FK_formula (mu_0 Mmin Mmax beta p c Tref offspring_fraction : ℝ)
    (hc : 0 < c) (hT : 0 < Tref) :
    critical_FK Mmin Mmax p c Tref beta Mmin
      = Kstar_spec Mmin Mmax p c beta / Tref ^ p
    ∧ (Process_M_t.mk' mu_0 Tref c beta Mmin p Mmin Mmax offspring_fraction).FK
      = offspring_fraction * critical_FK Mmin Mmax p c Tref beta Mmin := by
  constructor
  · have hcT : (0 : ℝ) < c / Tref := div_pos hc hT
    have hrw : Real.exp (p * Real.log (c / Tref)) = (c / Tref) ^ p := by
      rw [Real.rpow_def_of_pos hcT, mul_comm]
    have hdiv : (c / Tref : ℝ) ^ p = c ^ p / Tref ^ p :=
      Real.div_rpow hc.le hT.le p
    have hsub : (c : ℝ) ^ (p - 1) = c ^ p / c := by
      rw [Real.rpow_sub hc, Real.rpow_one]
    unfold critical_FK Kstar_spec
    rw [hrw, hdiv, hsub, show beta * (Mmin - Mmin) = 0 by ring, Real.exp_zero]
    field_simp
    ring
  · show critical_FK Mmin Mmax p c Tref beta Mmin * offspring_fraction = _
    ring

/-- C5 counterexample: `c = 0` passes every check of the entry-point
validation (with `Mmin = 0 < 1 = Mmax`, `p = 2 > 1`,
`offspring_fraction = 1/2 ∈ [0,1)`), yet `critical_FK` is not strictly
positive there and `FK < critical_FK` fails. -/
theorem C5_counterexample :
    (0 : ℝ) < 1 ∧ (1 : ℝ) < 2 ∧ (0 : ℝ) ≤ 1 / 2 ∧ (1 / 2 : ℝ) < 1
    ∧ ¬ (0 < critical_FK 0 1 2 0 1 1 0)
    ∧ ¬ ((Process_M_t.mk' 1 1 0 1 0 2 0 1 (1 / 2)).FK
          < critical_FK 0 1 2 0 1 1 0) := by
  have hck : critical_FK 0 1 2 0 1 1 0 = 0 := by
    unfold critical_FK
    norm_num
  have hFK : (Process_M_t.mk' 1 1 0 1 0 2 0 1 (1 / 2)).FK = 0 := by
    show critical_FK 0 1 2 0 1 1 0 * (1 / 2) = 0
    rw [hck]; ring
  refine ⟨by norm_num, by norm_num, by norm_num, by norm_num, ?_, ?_⟩
  · rw [hck]; exact lt_irrefl 0
  · rw [hck, hFK]; exact lt_irrefl 0

/-- Shared helper: the critical rate is strictly positive for
`Mmin < Mmax`, `p > 1`, `c > 0` and `beta ≠ 0` (any `Tref`, any `Mr`). -/
lemma critical_FK_pos (Mmin Mmax beta p c Tref Mr : ℝ)
    (hM : Mmin < Mmax) (hp : 1 < p) (hc : 0 < c) (hβ : beta ≠ 0) :
    0 < critical_FK Mmin Mmax p c Tref beta Mr := by
  have hX : 0 < (p - 1) * Real.exp (p * Real.log (c / Tref)) / c :=
    div_pos (mul_pos (by linarith) (Real.exp_pos _)) hc
  have he : 0 < Real.exp (beta * (Mmin - Mr)) := Real.exp_pos _
  have hΔ : 0 < Mmax - Mmin := by linarith
  unfold critical_FK
  rcases lt_or_gt_of_ne hβ with hneg | hpos
  · -- beta < 0 : numerator and denominator are both negative
    have hA : 1 - Real.exp (-beta * (Mmax - Mmin)) < 0 := by
      have h1 : (1 : ℝ) < Real.exp (-beta * (Mmax - Mmin)) :=
        Real.one_lt_exp_iff.mpr (by nlinarith)
      linarith
    have hnum : (p - 1) * Real.exp (p * Real.log (c / Tref)) / c
        * (1 - Real.exp (-beta * (Mmax - Mmin))) < 0 :=
      mul_neg_of_pos_of_neg hX hA
    have hden : beta * Real.exp (beta * (Mmin - Mr)) * (Mmax - Mmin) < 0 :=
      mul_neg_of_neg_of_pos (mul_neg_of_neg_of_pos hneg he) hΔ
    exact div_pos_iff.mpr (Or.inr ⟨hnum, hden⟩)
  · -- beta > 0
    have hA := truncation_mass_pos hpos hM
    exact div_pos (mul_pos hX hA) (mul_pos (mul_pos hpos he) hΔ)

/-- C5 (amended): for inputs passing validation that additionally satisfy
the interface preconditions `c > 0` and `beta ≠ 0` (with `Tref > 0`; the
entry point fixes `Tref = 1 s`), `critical_FK` is strictly positive (and,
being a real number, finite), and the constructed `FK` is strictly below
`critical_FK` whenever `offspring_fraction < 1`. -/
theorem C5_critical_FK_pos (mu_0 Mmin Mmax beta p c Tref Mr offspring_fraction : ℝ)
    (hM : Mmin < Mmax) (hp : 1 < p) (hof : offspring_fraction < 1)
    (hc : 0 < c) (_hT : 0 < Tref) (hβ : beta ≠ 0) :
    0 < critical_FK Mmin Mmax p c Tref beta Mr
    ∧ (Process_M_t.mk' mu_0 Tref c beta Mr p Mmin Mmax offspring_fraction).FK
      < critical_FK Mmin Mmax p c Tref beta Mr := by
  have hcrit : 0 < critical_FK Mmin Mmax p c Tref beta Mr :=
    critical_FK_pos Mmin Mmax beta p c Tref Mr hM hp hc hβ
  refine ⟨hcrit, ?_⟩
  show critical_FK Mmin Mmax p c Tref beta Mr * offspring_fraction < _
  calc critical_FK Mmin Mmax p c Tref beta Mr * offspring_fraction
      < critical_FK Mmin Mmax p c Tref beta Mr * 1 := by
        exact mul_lt_mul_of_pos_left hof hcrit
    _ = critical_FK Mmin Mmax p c Tref beta Mr := mul_one _

/-- Shared helper: with a uniform draw strictly inside `(0,1)` and a
positive background rate, the next background candidate is strictly after
the current time. -/
lemma nbo_lt (P : Process_M_t) (q tl : ℝ) (hmu : 0 < P.mu_0)
    (hq : q ∈ Set.Ioo (0 : ℝ) 1) :
    tl < next_background_occurrence q tl P := by
  have hlog : Real.log q < 0 := Real.log_neg hq.1 hq.2
  have : Real.log q / P.mu_0 < 0 := div_neg_of_neg_of_pos hlog hmu
  unfold next_background_occurrence
  linarith

/-- C8: the generator stream is specified never to return the endpoints of
`(0,1)` (spec §7; the `mt19937_64` generator itself is outside the C++
sources, so this contract is modelled from the spec); for any such draw
`q ∈ (0,1)` and positive background rate, `next_background_occurrence`
equals `tl - ln(q)/mu_0` and is a (finite) real strictly greater than `tl`. -/
theorem C8_background_in_open_interval (P : Process_M_t) (q tl : ℝ)
    (hmu : 0 < P.mu_0) (hq : q ∈ Set.Ioo (0 : ℝ) 1) :
    next_background_occurrence q tl P = tl - Real.log q / P.mu_0
    ∧ tl < next_background_occurrence q tl P := by
  exact ⟨rfl, nbo_lt P q tl hmu hq⟩

section NextSingleOccurrence

variable {P : Process_M_t}

/-- With `FK = 0` the excitation vanishes: `Lambda_i_oo` is `0`, so any
draw `q ≤ 1` takes the early-exit branch of `next_single_occurrence`. -/
lemma nso_FK_zero (hFK : P.FK = 0) (q ti Mi tl : ℝ) (hq : q ≤ 1) :
    next_single_occurrence q ti Mi tl P = none := by
  have hL : Lambda_i_oo ti tl Mi P = 0 := by
    unfold Lambda_i_oo
    rw [hFK]
    ring
  unfold next_single_occurrence
  rw [hL]
  simp [hq]

/-- `Lambda_i_oo` rewritten with a positive leading factor: it equals
`f(Mi) * Tref * FK * ((tl-ti+c)/Tref)^(1-p) / (p-1)`. -/
lemma Lambda_i_oo_eq (ti tl Mi : ℝ) :
    Lambda_i_oo ti tl Mi P
      = f Mi P * P.Tref * P.FK
          * ((tl - ti + P.c) / P.Tref) ^ (1 - P.p) / (P.p - 1) := by
  unfold Lambda_i_oo
  rw [show (1 - P.p) = -(P.p - 1) by ring, div_neg]
  ring

/-- Core of C3: if `next_single_occurrence` does return a time, that time
is strictly greater than `tl`.  Preconditions: `p > 1`, `c > 0`,
`Tref > 0`, `FK > 0`, `tl ≥ ti`, `q ∈ (0,1)`. -/
lemma nso_some_gt_of_pos (hp : 1 < P.p) (hc : 0 < P.c) (hT : 0 < P.Tref)
    (hFK : 0 < P.FK) {q ti Mi tl : ℝ} (hti : ti ≤ tl)
    (hq : q ∈ Set.Ioo (0 : ℝ) 1) (t' : ℝ)
    (h : next_single_occurrence q ti Mi tl P = some t') : tl < t' := by
  have hf : 0 < f Mi P := Real.exp_pos _
  have hbase : 0 < (tl - ti + P.c) / P.Tref :=
    div_pos (by linarith) hT
  set base : ℝ := (tl - ti + P.c) / P.Tref with hbasedef
  set A : ℝ := base ^ (1 - P.p) with hAdef
  have hA : 0 < A := Real.rpow_pos_of_pos hbase _
  set D : ℝ := f Mi P * P.FK * P.Tref with hDdef
  have hD : 0 < D := mul_pos (mul_pos hf hFK) hT
  -- the early-exit test failed, so q > exp(-Lambda)
  have hcond : ¬ q ≤ Real.exp (-Lambda_i_oo ti tl Mi P) := by
    intro hle
    rw [next_single_occurrence, if_pos hle] at h
    exact Option.noConfusion h
  push_neg at hcond
  -- hence -log q < Lambda = D * A / (p - 1)
  have hLam : Lambda_i_oo ti tl Mi P = D * A / (P.p - 1) := by
    rw [Lambda_i_oo_eq]
    rw [hDdef, hAdef, hbasedef]
    ring
  have hlogq : Real.log q < 0 := Real.log_neg hq.1 hq.2
  have hlog_gt : -Lambda_i_oo ti tl Mi P < Real.log q := by
    have := Real.log_lt_log (Real.exp_pos _) hcond
    rwa [Real.log_exp] at this
  have hmlq : -Real.log q < D * A / (P.p - 1) := by
    rw [← hLam] at *
    linarith
  -- the log argument in the returned formula is A - B with 0 < B < A
  set B : ℝ := (1 - P.p) / D * Real.log q with hBdef
  have hp1 : (0 : ℝ) < P.p - 1 := by linarith
  have hB_pos : 0 < B := by
    rw [hBdef]
    have h1 : (1 - P.p) / D < 0 := div_neg_of_neg_of_pos (by linarith) hD
    exact mul_pos_of_neg_of_neg h1 hlogq
  have hB_lt : B < A := by
    have h1 : -Real.log q * (P.p - 1) < D * A := by
      rw [lt_div_iff₀ hp1] at hmlq
      linarith
    rw [hBdef]
    rw [show (1 - P.p) / D * Real.log q = (P.p - 1) / D * (-Real.log q) by ring]
    rw [div_mul_eq_mul_div, div_lt_iff₀ hD]
    nlinarith
  have hAB : 0 < A - B := by linarith
  -- extract the value of t'
  have ht' : t' = ti - P.c + P.Tref * Real.exp (
      1 / (1 - P.p) * Real.log (A - B)) := by
    rw [next_single_occurrence, if_neg (not_le.mpr hcond)] at h
    exact (Option.some.inj h).symm
  -- exp((1/(1-p)) * log (A-B)) = (A-B)^(1/(1-p))
  have hexp_rpow : Real.exp (1 / (1 - P.p) * Real.log (A - B))
      = (A - B) ^ (1 / (1 - P.p)) := by
    rw [Real.rpow_def_of_pos hAB, mul_comm]
  have hz : 1 / (1 - P.p) < 0 := div_neg_of_pos_of_neg one_pos (by linarith)
  -- with a negative exponent, A - B < A gives (A-B)^z > A^z = base
  have hmono : A ^ (1 / (1 - P.p)) < (A - B) ^ (1 / (1 - P.p)) :=
    Real.rpow_lt_rpow_of_neg hAB (by linarith) hz
  have hcollapse : A ^ (1 / (1 - P.p)) = base := by
    have hne : (1 : ℝ) - P.p ≠ 0 := sub_ne_zero.mpr (by linarith)
    rw [hAdef, ← Real.rpow_mul hbase.le, mul_one_div_cancel hne]
    exact Real.rpow_one base
  have hbase_lt : base < (A - B) ^ (1 / (1 - P.p)) := by
    rw [← hcollapse]; exact hmono
  have hmul : P.Tref * base < P.Tref * (A - B) ^ (1 / (1 - P.p)) :=
    mul_lt_mul_of_pos_left hbase_lt hT
  have hbase_val : P.Tref * base = tl - ti + P.c := by
    rw [hbasedef]
    field_simp
  rw [ht', hexp_rpow]
  linarith

end NextSingleOccurrence

/-- C3: under the preconditions `p > 1`, `c > 0`, `FK > 0`, `Tref > 0`,
`tl ≥ ti`, `q ∈ (0,1)`: `next_single_occurrence` returns no time iff
`q ≤ exp(-Lambda_i_oo)`, where `Lambda_i_oo` equals the closed-form tail
integral `f(Mi) * Tref * FK / (p-1) * ((tl-ti+c)/Tref)^(1-p)`; any
returned time equals the claimed closed-form inverse and is strictly
greater than `tl`. -/
theorem C3_next_single_occurrence (P : Process_M_t) (q ti Mi tl : ℝ)
    (hp : 1 < P.p) (hc : 0 < P.c) (hT : 0 < P.Tref) (hFK : 0 < P.FK)
    (hti : ti ≤ tl) (hq : q ∈ Set.Ioo (0 : ℝ) 1) :
    (next_single_occurrence q ti Mi tl P = none ↔
        q ≤ Real.exp (-Lambda_i_oo ti tl Mi P))
    ∧ Lambda_i_oo ti tl Mi P
        = f Mi P * P.Tref * P.FK / (P.p - 1)
          * ((tl - ti + P.c) / P.Tref) ^ (1 - P.p)
    ∧ ∀ t', next_single_occurrence q ti Mi tl P = some t' →
        t' = ti - P.c + P.Tref * Real.exp (
            1 / (1 - P.p) * Real.log (
              ((tl - ti + P.c) / P.Tref) ^ (1 - P.p)
              - (1 - P.p) / (f Mi P * P.FK * P.Tref) * Real.log q))
          ∧ tl < t' := by
  refine ⟨?_, ?_, ?_⟩
  · unfold next_single_occurrence
    split_ifs with h
    · simp [h]
    · simp [h]
  · rw [Lambda_i_oo_eq]
    ring
  · intro t' h
    refine ⟨?_, nso_some_gt_of_pos hp hc hT hFK hti hq t' h⟩
    unfold next_single_occurrence at h
    split_ifs at h with hcond
    exact (Option.some.inj h).symm

/-- The second part of the loop body never changes the emitted time nor
the pending background candidate. -/
lemma next_event_rest_t (Mmin Mmax : ℝ) (P : Process_M_t) (u : ℕ → ℝ)
    (s1 : SimState) :
    (next_event_rest Mmin Mmax P u s1).t = s1.t
    ∧ (next_event_rest Mmin Mmax P u s1).next_bg = s1.next_bg := by
  constructor <;> (simp only [next_event_rest]; split <;> rfl)

/-- C10: on an exact tie between the background candidate and the queue
top's candidate time, `next_event` emits the descendant: the branch
condition `descendants.empty() || next_bg < top().tnext` is false, the
emitted time is the top's `tnext`, and the background candidate is left
untouched (it is redrawn only in the background branch).  In general the
background branch is taken iff the queue is empty or `next_bg` is strictly
smaller than the top's `tnext`. -/
theorem C10_tie_prefers_descendant (Mmin Mmax : ℝ) (P : Process_M_t)
    (u : ℕ → ℝ) (s : SimState) (ev : excitement_t) (rest : List excitement_t)
    (hdesc : s.descendants = ev :: rest) (htie : s.next_bg = ev.tnext) :
    ¬ emitsBackground s
    ∧ (next_event Mmin Mmax P u s).t = ev.tnext
    ∧ (next_event Mmin Mmax P u s).next_bg = s.next_bg
    ∧ (emitsBackground s ↔ s.descendants = [] ∨
        ∃ e l, s.descendants = e :: l ∧ s.next_bg < e.tnext) := by
  have hnotlt : ¬ s.next_bg < ev.tnext := by rw [htie]; exact lt_irrefl _
  refine ⟨?_, ?_, ?_, ?_⟩
  · unfold emitsBackground
    rw [hdesc]
    exact hnotlt
  · rw [next_event, (next_event_rest_t Mmin Mmax P u _).1]
    unfold next_event_time
    rw [hdesc]
    simp only [if_neg hnotlt]
    split <;> rfl
  · rw [next_event, (next_event_rest_t Mmin Mmax P u _).2]
    unfold next_event_time
    rw [hdesc]
    simp only [if_neg hnotlt]
    split <;> rfl
  · unfold emitsBackground
    rw [hdesc]
    constructor
    · intro h
      exact Or.inr ⟨ev, rest, rfl, h⟩
    · rintro (h | ⟨e, l, he, hlt⟩)
      · exact absurd h (by simp)
      · rw [List.cons.injEq] at he
        rw [he.1]
        exact hlt

/-- C1: the call is all-or-nothing.  Each precondition violation is
reported (in the source's check order) as its own distinct error before
any event is generated — an `Except.error` carries no output, modelling
the untouched output buffers — and an accepted parameter set always
produces `Except.ok` with exactly `N = Mi.size()` magnitudes and times,
for every `N_skip` (including `0`).  The five error messages are pairwise
distinct. -/
theorem C1_all_or_nothing (mu_0 Mmin Mmax beta p c Mr offspring_fraction : ℝ)
    (N_skip NM Nt : ℕ) (u : ℕ → ℝ) :
    (Mmin ≥ Mmax →
      ETAS_generate_catalog_M_t mu_0 Mmin Mmax beta p c Mr offspring_fraction
        N_skip NM Nt u = .error "Mmin >= Mmax")
    ∧ (¬ Mmin ≥ Mmax → p ≤ 1 →
      ETAS_generate_catalog_M_t mu_0 Mmin Mmax beta p c Mr offspring_fraction
        N_skip NM Nt u = .error "p <= 1")
    ∧ (¬ Mmin ≥ Mmax → ¬ p ≤ 1 → offspring_fraction ≥ 1 →
      ETAS_generate_catalog_M_t mu_0 Mmin Mmax beta p c Mr offspring_fraction
        N_skip NM Nt u = .error "Instable process (offspring ratio > 1)")
    ∧ (¬ Mmin ≥ Mmax → ¬ p ≤ 1 → ¬ offspring_fraction ≥ 1 →
        offspring_fraction < 0 →
      ETAS_generate_catalog_M_t mu_0 Mmin Mmax beta p c Mr offspring_fraction
        N_skip NM Nt u = .error "Offspring ratio needs to be non-negative.")
    ∧ (¬ Mmin ≥ Mmax → ¬ p ≤ 1 → ¬ offspring_fraction ≥ 1 →
        ¬ offspring_fraction < 0 → Nt ≠ NM →
      ETAS_generate_catalog_M_t mu_0 Mmin Mmax beta p c Mr offspring_fraction
        N_skip NM Nt u = .error "Size of M and t not compatible")
    ∧ (¬ Mmin ≥ Mmax → ¬ p ≤ 1 → ¬ offspring_fraction ≥ 1 →
        ¬ offspring_fraction < 0 → Nt = NM →
      ∃ out,
        ETAS_generate_catalog_M_t mu_0 Mmin Mmax beta p c Mr offspring_fraction
          N_skip NM Nt u = .ok out
        ∧ out.1.length = NM ∧ out.2.length = NM)
    ∧ ["Mmin >= Mmax", "p <= 1", "Instable process (offspring ratio > 1)",
        "Offspring ratio needs to be non-negative.",
        "Size of M and t not compatible"].Nodup := by
  refine ⟨?_, ?_, ?_, ?_, ?_, ?_, by decide⟩
  · intro h1
    rw [ETAS_generate_catalog_M_t, if_pos h1]
  · intro h1 h2
    rw [ETAS_generate_catalog_M_t, if_neg h1, if_pos h2]
  · intro h1 h2 h3
    rw [ETAS_generate_catalog_M_t, if_neg h1, if_neg h2, if_pos h3]
  · intro h1 h2 h3 h4
    rw [ETAS_generate_catalog_M_t, if_neg h1, if_neg h2, if_neg h3, if_pos h4]
  · intro h1 h2 h3 h4 h5
    rw [ETAS_generate_catalog_M_t, if_neg h1, if_neg h2, if_neg h3, if_neg h4,
      if_pos h5]
  · intro h1 h2 h3 h4 h5
    refine ⟨catalogOutput mu_0 Mmin Mmax beta p c Mr offspring_fraction N_skip NM u,
      ?_, ?_, ?_⟩
    · rw [ETAS_generate_catalog_M_t, if_neg h1, if_neg h2, if_neg h3, if_neg h4,
        if_neg (by simp [h5])]
    · simp [catalogOutput]
    · simp [catalogOutput]

/-- C7: the simulation consumes randomness only through the single
generator stream (modelled from the spec as a function of the seed), so
two calls with identical parameters and identical streams produce
identical magnitude and time sequences. -/
theorem C7_deterministic (mu_0 Mmin Mmax beta p c Mr offspring_fraction : ℝ)
    (N_skip NM Nt : ℕ) (u1 u2 : ℕ → ℝ) (h : ∀ k, u1 k = u2 k) :
    ETAS_generate_catalog_M_t mu_0 Mmin Mmax beta p c Mr offspring_fraction
        N_skip NM Nt u1
      = ETAS_generate_catalog_M_t mu_0 Mmin Mmax beta p c Mr offspring_fraction
        N_skip NM Nt u2 := by
  have hu : u1 = u2 := funext h
  rw [hu]

section OffspringZero

variable {P : Process_M_t} {u : ℕ → ℝ}

/-- With `FK = 0` and an empty queue, one loop iteration emits the pending
background candidate, redraws it, and leaves the queue empty. -/
lemma next_event_FK_zero (Mmin Mmax : ℝ) (hFK : P.FK = 0)
    (hu : ∀ k, u k ≤ 1) (s : SimState) (hdesc : s.descendants = []) :
    (next_event Mmin Mmax P u s).descendants = []
    ∧ (next_event Mmin Mmax P u s).t = s.next_bg
    ∧ (next_event Mmin Mmax P u s).next_bg
        = next_background_occurrence (u s.k) s.next_bg P := by
  have hall : ∀ k ti Mi tl, next_single_occurrence (u k) ti Mi tl P = none :=
    fun k ti Mi tl => nso_FK_zero hFK _ _ _ _ (hu k)
  unfold next_event next_event_rest next_event_time
  rw [hdesc]
  simp only [hall, hdesc]
  exact ⟨trivial, trivial, trivial⟩

/-- C9: when `offspring_fraction = 0` the constructor sets `FK = 0`; then
`next_single_occurrence` always reports no further child (for any draw
`q ≤ 1`), no descendant stream is ever pushed — the queue stays empty from
the initial state on — and every emitted event is the pending background
candidate, refreshed by the exponential inter-arrival inversion: a pure
Poisson process of rate `mu_0`. -/
theorem C9_offspring_zero_pure_poisson (mu_0 Tref c beta Mr p Mmin Mmax : ℝ)
    (P : Process_M_t) (u : ℕ → ℝ) (hFK : P.FK = 0) (hu : ∀ k, u k ≤ 1) :
    (Process_M_t.mk' mu_0 Tref c beta Mr p Mmin Mmax 0).FK = 0
    ∧ (∀ q ti Mi tl, q ≤ 1 → next_single_occurrence q ti Mi tl P = none)
    ∧ (∀ n, (iterState Mmin Mmax P u (initState P u) n).descendants = [])
    ∧ (∀ n, (iterState Mmin Mmax P u (initState P u) (n + 1)).t
          = (iterState Mmin Mmax P u (initState P u) n).next_bg)
    ∧ (∀ n, (iterState Mmin Mmax P u (initState P u) (n + 1)).next_bg
          = next_background_occurrence
              (u ((iterState Mmin Mmax P u (initState P u) n).k))
              ((iterState Mmin Mmax P u (initState P u) n).next_bg) P) := by
  have hempty : ∀ n, (iterState Mmin Mmax P u (initState P u) n).descendants = [] := by
    intro n
    induction n with
    | zero => rfl
    | succ m ih =>
      exact (next_event_FK_zero Mmin Mmax hFK hu _ ih).1
  refine ⟨mul_zero _, fun q ti Mi tl hq => nso_FK_zero hFK _ _ _ _ hq, hempty,
    fun n => (next_event_FK_zero Mmin Mmax hFK hu _ (hempty n)).2.1,
    fun n => (next_event_FK_zero Mmin Mmax hFK hu _ (hempty n)).2.2⟩

end OffspringZero

section Monotonicity

/-- The loop invariant of the event schedule: the pending background
candidate is not in the past, the queue is sorted by ascending candidate
time (so its head is the priority queue's top), and every open descendant
stream has an ancestor in the past and a candidate not in the past. -/
def Inv (s : SimState) : Prop :=
  s.t ≤ s.next_bg
  ∧ List.Sorted exle s.descendants
  ∧ ∀ e ∈ s.descendants, e.ti ≤ s.t ∧ s.t ≤ e.tnext

variable {P : Process_M_t} {u : ℕ → ℝ}

/-- Any time returned by `next_single_occurrence` is strictly after `tl`,
for `FK ≥ 0` (the `FK = 0` case returns no time at all). -/
lemma nso_some_gt (hp : 1 < P.p) (hc : 0 < P.c) (hT : 0 < P.Tref)
    (hFK : 0 ≤ P.FK) {q ti Mi tl : ℝ} (hti : ti ≤ tl)
    (hq : q ∈ Set.Ioo (0 : ℝ) 1) (t' : ℝ)
    (h : next_single_occurrence q ti Mi tl P = some t') : tl < t' := by
  rcases eq_or_lt_of_le hFK with hzero | hpos
  · rw [nso_FK_zero hzero.symm _ _ _ _ hq.2.le] at h
    exact Option.noConfusion h
  · exact nso_some_gt_of_pos hp hc hT hpos hti hq t' h

/-- The first part of the loop body preserves the schedule invariant and
never moves the emitted time backwards. -/
lemma next_event_time_inv (hmu : 0 < P.mu_0) (hp : 1 < P.p) (hc : 0 < P.c)
    (hT : 0 < P.Tref) (hFK : 0 ≤ P.FK)
    (hu : ∀ k, u k ∈ Set.Ioo (0 : ℝ) 1) (s : SimState) (hs : Inv s) :
    Inv (next_event_time P u s) ∧ s.t ≤ (next_event_time P u s).t := by
  obtain ⟨hbg, hsort, hmem⟩ := hs
  rcases hd : s.descendants with _ | ⟨ev, rest⟩
  · -- empty queue: background event
    unfold next_event_time
    rw [hd]
    refine ⟨⟨(nbo_lt P _ _ hmu (hu s.k)).le, List.sorted_nil, ?_⟩, hbg⟩
    intro e he
    exact absurd he (List.not_mem_nil e)
  · have hsort' : List.Sorted exle (ev :: rest) := hd ▸ hsort
    have hhead := (List.sorted_cons.mp hsort').1
    have hev : ev.ti ≤ s.t ∧ s.t ≤ ev.tnext :=
      hmem ev (by rw [hd]; exact List.mem_cons_self ev rest)
    by_cases hlt : s.next_bg < ev.tnext
    · -- background event
      unfold next_event_time
      rw [hd]
      simp only [if_pos hlt]
      refine ⟨⟨(nbo_lt P _ _ hmu (hu s.k)).le, hsort', ?_⟩, hbg⟩
      intro e he
      have h1 := hmem e (by rw [hd]; exact he)
      refine ⟨le_trans h1.1 hbg, ?_⟩
      rcases List.mem_cons.mp he with rfl | he'
      · exact hlt.le
      · exact le_trans hlt.le (hhead e he')
    · -- descendant event: pop the top and re-sample its stream
      have htop : ev.tnext ≤ s.next_bg := not_lt.mp hlt
      rcases hnso : next_single_occurrence (u s.k) ev.ti ev.M ev.tnext P
        with _ | tn
      · unfold next_event_time
        rw [hd]
        simp only [if_neg hlt, hnso]
        refine ⟨⟨htop, (List.sorted_cons.mp hsort').2, ?_⟩, hev.2⟩
        intro e he
        exact ⟨le_trans (hmem e (by rw [hd]; exact List.mem_cons_of_mem ev he)).1
            hev.2, hhead e he⟩
      · have htn : ev.tnext < tn :=
          nso_some_gt hp hc hT hFK (le_trans hev.1 hev.2) (hu s.k) tn hnso
        unfold next_event_time
        rw [hd]
        simp only [if_neg hlt, hnso]
        refine ⟨⟨htop, ?_, ?_⟩, hev.2⟩
        · exact List.Sorted.orderedInsert _ _ (List.sorted_cons.mp hsort').2
        · intro e he
          simp only [descPush] at he
          rcases (List.mem_orderedInsert exle).mp he with rfl | he'
          · exact ⟨le_trans hev.1 hev.2, htn.le⟩
          · exact ⟨le_trans (hmem e
                (by rw [hd]; exact List.mem_cons_of_mem ev he')).1 hev.2,
              hhead e he'⟩

/-- The second part of the loop body preserves the schedule invariant
(it only draws a magnitude and possibly opens a fresh stream for the
just-emitted event). -/
lemma next_event_rest_inv (Mmin Mmax : ℝ) (hp : 1 < P.p) (hc : 0 < P.c)
    (hT : 0 < P.Tref) (hFK : 0 ≤ P.FK)
    (hu : ∀ k, u k ∈ Set.Ioo (0 : ℝ) 1) (s1 : SimState) (h1 : Inv s1) :
    Inv (next_event_rest Mmin Mmax P u s1) := by
  obtain ⟨hbg, hsort, hmem⟩ := h1
  rcases hnso : next_single_occurrence (u (s1.k + 1)) s1.t
      (draw_magnitude (u s1.k) Mmin Mmax P.beta) s1.t P with _ | tn
  · simp only [next_event_rest, hnso]
    exact ⟨hbg, hsort, hmem⟩
  · have htn : s1.t < tn :=
      nso_some_gt hp hc hT hFK le_rfl (hu (s1.k + 1)) tn hnso
    simp only [next_event_rest, hnso]
    refine ⟨hbg, List.Sorted.orderedInsert _ _ hsort, ?_⟩
    intro e he
    simp only [descPush] at he
    rcases (List.mem_orderedInsert exle).mp he with rfl | he'
    · exact ⟨le_refl _, htn.le⟩
    · exact hmem e he'

/-- One full loop iteration preserves the invariant and emits at a time
not before the previously emitted one. -/
lemma next_event_inv (Mmin Mmax : ℝ) (hmu : 0 < P.mu_0) (hp : 1 < P.p)
    (hc : 0 < P.c) (hT : 0 < P.Tref) (hFK : 0 ≤ P.FK)
    (hu : ∀ k, u k ∈ Set.Ioo (0 : ℝ) 1) (s : SimState) (hs : Inv s) :
    Inv (next_event Mmin Mmax P u s) ∧ s.t ≤ (next_event Mmin Mmax P u s).t := by
  have h1 := next_event_time_inv hmu hp hc hT hFK hu s hs
  refine ⟨next_event_rest_inv Mmin Mmax hp hc hT hFK hu _ h1.1, ?_⟩
  rw [next_event, (next_event_rest_t Mmin Mmax P u _).1]
  exact h1.2

/-- The driver's initial state satisfies the invariant. -/
lemma initState_inv (hmu : 0 < P.mu_0) (hu : ∀ k, u k ∈ Set.Ioo (0 : ℝ) 1) :
    Inv (initState P u) := by
  refine ⟨(nbo_lt P (u 0) 0 hmu (hu 0)).le, List.sorted_nil, ?_⟩
  intro e he
  exact absurd he (List.not_mem_nil e)

/-- Every iterate satisfies the invariant, and the emitted times are
monotone in the iteration count. -/
lemma iterState_inv_mono (Mmin Mmax : ℝ) (hmu : 0 < P.mu_0) (hp : 1 < P.p)
    (hc : 0 < P.c) (hT : 0 < P.Tref) (hFK : 0 ≤ P.FK)
    (hu : ∀ k, u k ∈ Set.Ioo (0 : ℝ) 1) (s0 : SimState) (h0 : Inv s0) :
    (∀ n, Inv (iterState Mmin Mmax P u s0 n))
    ∧ ∀ m n, m ≤ n →
        (iterState Mmin Mmax P u s0 m).t ≤ (iterState Mmin Mmax P u s0 n).t := by
  have hinv : ∀ n, Inv (iterState Mmin Mmax P u s0 n) := by
    intro n
    induction n with
    | zero => exact h0
    | succ m ih => exact (next_event_inv Mmin Mmax hmu hp hc hT hFK hu _ ih).1
  refine ⟨hinv, ?_⟩
  intro m n hmn
  induction n with
  | zero =>
    rw [Nat.le_zero.mp hmn]
  | succ l ih =>
    rcases Nat.lt_or_ge m (l + 1) with hlt | hge
    · exact le_trans (ih (Nat.lt_succ_iff.mp hlt))
        (next_event_inv Mmin Mmax hmu hp hc hT hFK hu _ (hinv l)).2
    · rw [Nat.le_antisymm hmn hge]

end Monotonicity

/-- C2: with valid parameters (and the interface preconditions `c > 0`,
`beta ≠ 0`) and a generator stream inside `(0,1)`, every loop iteration —
including the `N_skip` discarded warm-up events — emits at a time not
before the previous event's time, and any catalog produced by the entry
point has non-decreasing `times`. -/
theorem C2_times_sorted (mu_0 Mmin Mmax beta p c Mr offspring_fraction : ℝ)
    (N_skip NM Nt : ℕ) (u : ℕ → ℝ)
    (hmu : 0 < mu_0) (hM : Mmin < Mmax) (hp : 1 < p) (hc : 0 < c)
    (hβ : beta ≠ 0) (hof0 : 0 ≤ offspring_fraction)
    (hu : ∀ k, u k ∈ Set.Ioo (0 : ℝ) 1) :
    (∀ P, P = Process_M_t.mk' mu_0 1 c beta Mr p Mmin Mmax offspring_fraction →
      ∀ n, (iterState Mmin Mmax P u (initState P u) n).t
        ≤ (iterState Mmin Mmax P u (initState P u) (n + 1)).t)
    ∧ ∀ out,
        ETAS_generate_catalog_M_t mu_0 Mmin Mmax beta p c Mr offspring_fraction
          N_skip NM Nt u = .ok out →
        List.Sorted (· ≤ ·) out.2 := by
  set P : Process_M_t :=
    Process_M_t.mk' mu_0 1 c beta Mr p Mmin Mmax offspring_fraction with hP
  have hmu' : 0 < P.mu_0 := hmu
  have hp' : 1 < P.p := hp
  have hc' : 0 < P.c := hc
  have hT' : 0 < P.Tref := one_pos
  have hFK' : 0 ≤ P.FK := by
    show 0 ≤ critical_FK Mmin Mmax p c 1 beta Mr * offspring_fraction
    exact mul_nonneg
      (critical_FK_pos Mmin Mmax beta p c 1 Mr hM hp hc hβ).le hof0
  have hiter := iterState_inv_mono Mmin Mmax hmu' hp' hc' hT' hFK' hu
    (initState P u) (initState_inv hmu' hu)
  constructor
  · intro Q hQ n
    rw [hQ]
    exact hiter.2 n (n + 1) (Nat.le_succ n)
  · intro out hout
    rw [ETAS_generate_catalog_M_t, if_neg (not_le.mpr hM),
      if_neg (not_le.mpr hp)] at hout
    split_ifs at hout with h3 h4 h5
    have hco : out = catalogOutput mu_0 Mmin Mmax beta p c Mr
        offspring_fraction N_skip NM u := (Except.ok.inj hout).symm
    rw [hco]
    show List.Sorted (· ≤ ·) ((List.range NM).map fun i =>
      (iterState Mmin Mmax P u (initState P u) (N_skip + i + 1)).t)
    rw [List.Sorted, List.pairwise_map]
    refine (List.pairwise_lt_range NM).imp ?_
    intro a b hab
    exact hiter.2 (N_skip + a + 1) (N_skip + b + 1) (by omega)

/-! Witnesses: each hypothesis-bearing claim theorem applied at a concrete
input with all hypotheses discharged. -/

/-- Witness for C1 at an accepted parameter set. -/
theorem C1_all_or_nothing_witness :
    ∃ out,
      ETAS_generate_catalog_M_t 1 0 1 1 2 1 0 (1 / 2) 0 2 2 (fun _ => 1 / 2)
        = .ok out
      ∧ out.1.length = 2 ∧ out.2.length = 2 :=
  (C1_all_or_nothing 1 0 1 1 2 1 0 (1 / 2) 0 2 2
      (fun _ => 1 / 2)).2.2.2.2.2.1
    (by norm_num) (by norm_num) (by norm_num) (by norm_num) rfl

/-- Witness for C2 at a valid parameter set, comparing the first two
iterates. -/
theorem C2_times_sorted_witness :
    (iterState 0 1 (Process_M_t.mk' 1 1 1 1 0 2 0 1 (1 / 2)) (fun _ => 1 / 2)
        (initState (Process_M_t.mk' 1 1 1 1 0 2 0 1 (1 / 2)) (fun _ => 1 / 2))
        0).t
      ≤ (iterState 0 1 (Process_M_t.mk' 1 1 1 1 0 2 0 1 (1 / 2))
          (fun _ => 1 / 2)
          (initState (Process_M_t.mk' 1 1 1 1 0 2 0 1 (1 / 2))
            (fun _ => 1 / 2)) 1).t :=
  (C2_times_sorted 1 0 1 1 2 1 0 (1 / 2) 0 2 2 (fun _ => 1 / 2)
      (by norm_num) (by norm_num) (by norm_num) (by norm_num) (by norm_num)
      (by norm_num) (fun k => by constructor <;> norm_num)).1
    (Process_M_t.mk' 1 1 1 1 0 2 0 1 (1 / 2)) rfl 0

/-- Witness for C3 at a concrete process and draw. -/
theorem C3_next_single_occurrence_witness :
    next_single_occurrence (1 / 2) 0 0 0 ⟨1, 1, 1, 1, 0, 2, 0, 1⟩ = none ↔
      (1 / 2 : ℝ) ≤ Real.exp (-Lambda_i_oo 0 0 0 ⟨1, 1, 1, 1, 0, 2, 0, 1⟩) :=
  (C3_next_single_occurrence ⟨1, 1, 1, 1, 0, 2, 0, 1⟩ (1 / 2) 0 0 0
      (by show (1 : ℝ) < 2; norm_num) (by show (0 : ℝ) < 1; norm_num)
      (by show (0 : ℝ) < 1; norm_num) (by show (0 : ℝ) < 1; norm_num)
      le_rfl (by constructor <;> norm_num)).1

/-- Witness for C4 at a concrete parameter set. -/
theorem C4_critical_FK_formula_witness :
    critical_FK 0 1 2 1 1 1 0 = Kstar_spec 0 1 2 1 1 / (1 : ℝ) ^ (2 : ℝ)
    ∧ (Process_M_t.mk' 1 1 1 1 0 2 0 1 (1 / 2)).FK
      = (1 / 2) * critical_FK 0 1 2 1 1 1 0 :=
  C4_critical_FK_formula 1 0 1 1 2 1 1 (1 / 2) (by norm_num) (by norm_num)

/-- Witness for C5 (amended) at a concrete parameter set. -/
theorem C5_critical_FK_pos_witness :
    0 < critical_FK 0 1 2 1 1 1 0
    ∧ (Process_M_t.mk' 1 1 1 1 0 2 0 1 (1 / 2)).FK
      < critical_FK 0 1 2 1 1 1 0 :=
  C5_critical_FK_pos 1 0 1 1 2 1 1 0 (1 / 2) (by norm_num) (by norm_num)
    (by norm_num) (by norm_num) (by norm_num) (by norm_num)

/-- Witness for C6 at `q = 1/2`, `Mmin = 0`, `Mmax = 1`, `beta = 1`. -/
theorem C6_draw_magnitude_witness :
    draw_magnitude (1 / 2) 0 1 1 ∈ Set.Icc (0 : ℝ) 1 :=
  (C6_draw_magnitude 0 1 1 (by norm_num) (by norm_num)).2.1 (1 / 2)
    (by constructor <;> norm_num)

/-- Witness for C7: two pointwise-equal streams give equal catalogs. -/
theorem C7_deterministic_witness :
    ETAS_generate_catalog_M_t 1 0 1 1 2 1 0 (1 / 2) 0 2 2 (fun _ => 1 / 2)
      = ETAS_generate_catalog_M_t 1 0 1 1 2 1 0 (1 / 2) 0 2 2
        (fun _ => 2 / 4) :=
  C7_deterministic 1 0 1 1 2 1 0 (1 / 2) 0 2 2 (fun _ => 1 / 2)
    (fun _ => 2 / 4) (fun _ => by norm_num)

/-- Witness for C8 at a concrete process and draw. -/
theorem C8_background_witness :
    next_background_occurrence (1 / 2) 0 ⟨1, 1, 1, 1, 0, 2, 0, 1⟩
      = 0 - Real.log (1 / 2) / (⟨1, 1, 1, 1, 0, 2, 0, 1⟩ : Process_M_t).mu_0
    ∧ (0 : ℝ) < next_background_occurrence (1 / 2) 0 ⟨1, 1, 1, 1, 0, 2, 0, 1⟩ :=
  C8_background_in_open_interval ⟨1, 1, 1, 1, 0, 2, 0, 1⟩ (1 / 2) 0
    (by show (0 : ℝ) < 1; norm_num) (by constructor <;> norm_num)

/-- Witness for C9 at a zero-`FK` process: the queue is still empty after
one iteration. -/
theorem C9_offspring_zero_witness :
    (iterState 0 1 (⟨1, 1, 1, 1, 0, 2, 0, 0⟩ : Process_M_t) (fun _ => 1 / 2)
        (initState ⟨1, 1, 1, 1, 0, 2, 0, 0⟩ (fun _ => 1 / 2)) 1).descendants
      = [] :=
  (C9_offspring_zero_pure_poisson 1 1 1 1 0 2 0 1 ⟨1, 1, 1, 1, 0, 2, 0, 0⟩
      (fun _ => 1 / 2) rfl (fun _ => by norm_num)).2.2.1 1

/-- Witness for C10 at a state whose queue top ties the background
candidate. -/
theorem C10_tie_witness :
    ¬ emitsBackground ⟨0, 0, 1, [⟨0, 5, 1⟩], 0⟩ :=
  (C10_tie_prefers_descendant 0 1 ⟨1, 1, 1, 1, 0, 2, 0, 1⟩ (fun _ => 1 / 2)
      ⟨0, 0, 1, [⟨0, 5, 1⟩], 0⟩ ⟨0, 5, 1⟩ [] rfl rfl).1

end ETASCatGen
